import Mathlib

/-!
Verification of the vault similarity/health-analysis engine
(src/vault_intelligence.py, class VaultIntelligence).

The engine is embedded shallowly: the vault is a list of raw files (a file
that cannot be opened, decoded or parsed is represented by a missing
payload), indexing is a fold over that list, and the numeric analysis
(term-frequency vectors, cosine similarity, backlink counting, orphan
detection, health scoring) is translated function by function.  The float
division and multiplication feeding the connectivity score are modelled
bit-exactly by fl64 (binary64 rounding); the square-root-based similarity
value is idealized as exact real arithmetic, and the two claims whose truth
hinges on its final-ulp float behaviour are reported as code bugs against the
spec's exact-arithmetic reading rather than confirmed.
-/

set_option maxHeartbeats 1000000

namespace VaultIntelligence

/-! ## Tokenization (re.findall of word-character runs, lowercased, length > 2) -/

/-- A word character in the sense of the regex \w (ASCII idealization). -/
def isWordChar (c : Char) : Bool := c.isAlphanum || c = '_'

/-- Helper: length of dropWhile is at most the original length. -/
theorem length_dropWhile_le' (p : α → Bool) (l : List α) :
    (l.dropWhile p).length ≤ l.length :=
  (List.dropWhile_sublist p).length_le

/-- Fuel-driven splitter; every step consumes at least one character and one
unit of fuel, so fuel = length of the list runs the scan to completion. -/
def splitRunsF (p : Char → Bool) : ℕ → List Char → List String
  | 0, _ => []
  | _ + 1, [] => []
  | fuel + 1, c :: rest =>
    if p c then
      String.mk (c :: rest.takeWhile p) :: splitRunsF p fuel (rest.dropWhile p)
    else splitRunsF p fuel rest

/-- Split a character list into its maximal runs of characters satisfying p
(the behaviour of re.findall over a one-class pattern). -/
def splitRuns (p : Char → Bool) (l : List Char) : List String :=
  splitRunsF p l.length l

/-- tokenize from _calculate_similarity: lowercase, take maximal word-character
runs, keep only tokens of length > 2. -/
def tokenize (text : String) : List String :=
  (splitRuns isWordChar (text.data.map Char.toLower)).filter (fun w => 2 < w.length)

/-- str.split() with no arguments: maximal runs of non-whitespace characters. -/
def pySplit (s : String) : List String :=
  splitRuns (fun c => !c.isWhitespace) s.data

/-- len(content.split()) used as word_count of a note. -/
def pyWordCount (s : String) : ℕ := (pySplit s).length

/-- str.lower() (ASCII idealization). -/
def lowerStr (s : String) : String := String.mk (s.data.map Char.toLower)

/-! ## Link extraction (_extract_links) -/

/-- Scanner for re.findall of the wiki-link pattern: two open brackets, a
nonempty run of non-bracket characters (captured), two close brackets.  On a
failed match the scan advances one character; on a successful match it resumes
after the match. -/
def wikiLinksF : ℕ → List Char → List String
  | 0, _ => []
  | _ + 1, [] => []
  | _ + 1, [_] => []
  | fuel + 1, c :: c2 :: rest2 =>
    if c = '[' ∧ c2 = '[' ∧
        (rest2.dropWhile (fun x => x ≠ ']')).take 2 = [']', ']'] ∧
        rest2.takeWhile (fun x => x ≠ ']') ≠ [] then
      String.mk (rest2.takeWhile (fun x => x ≠ ']')) ::
        wikiLinksF fuel ((rest2.dropWhile (fun x => x ≠ ']')).drop 2)
    else wikiLinksF fuel (c2 :: rest2)

/-- Runs the wiki scanner to completion: every step consumes at least one
character, so fuel = length suffices. -/
def wikiLinks (l : List Char) : List String := wikiLinksF l.length l

/-- Scanner for re.findall of the markdown-link pattern: one open bracket, a
nonempty run of non-close-bracket characters, a close bracket, an open paren,
then a nonempty run of non-close-paren characters ending in ".md" (captured),
then a close paren. -/
def mdTail (rest : List Char) : List Char :=
  (rest.dropWhile (fun x => x ≠ ']')).drop 2

def mdCapture (rest : List Char) : List Char :=
  (mdTail rest).takeWhile (fun x => x ≠ ')')

def mdRemainder (rest : List Char) : List Char :=
  (mdTail rest).dropWhile (fun x => x ≠ ')')

def mdLinksF : ℕ → List Char → List String
  | 0, _ => []
  | _ + 1, [] => []
  | fuel + 1, c :: rest =>
    if c = '[' ∧ (rest.dropWhile (fun x => x ≠ ']')).take 2 = [']', '('] ∧
        rest.takeWhile (fun x => x ≠ ']') ≠ [] ∧
        4 ≤ (mdCapture rest).length ∧
        (mdCapture rest).drop ((mdCapture rest).length - 3) = ['.', 'm', 'd'] ∧
        mdRemainder rest ≠ [] then
      String.mk (mdCapture rest) :: mdLinksF fuel ((mdRemainder rest).drop 1)
    else mdLinksF fuel rest

/-- Runs the markdown scanner to completion: every step consumes at least one
character, so fuel = length suffices. -/
def mdLinks (l : List Char) : List String := mdLinksF l.length l

/-- _extract_links: wiki links then markdown links, duplicates removed
(list(set(links)) in the source; modelled as dedup, order immaterial to every
property stated below). -/
def extract_links (content : String) : List String :=
  (wikiLinks content.data ++ mdLinks content.data).dedup

/-! ## Path stems and link normalization (_normalize_link) -/

/-- Split a character list at a separator (str.split(sep) semantics: an empty
input gives one empty component, a trailing separator a trailing empty one). -/
def splitOnChar (sep : Char) (l : List Char) : List (List Char) :=
  l.foldr
    (fun c acc =>
      match acc with
      | [] => [[c]]
      | cur :: rest => if c = sep then [] :: cur :: rest else (c :: cur) :: rest)
    [[]]

/-- The final path component (the file name). -/
def fileName (p : String) : List Char := (splitOnChar '/' p.data).getLastD []

/-- pathlib stem of a file name: drop the last dot-suffix when the last dot is
neither the first nor past the last character. -/
def stemName (name : List Char) : List Char :=
  match (name.reverse.findIdx? (fun x => x = '.')) with
  | none => name
  | some j =>
    let i := name.length - 1 - j
    if 0 < i ∧ i < name.length - 1 then name.take i else name

/-- Path(p).stem: final path component minus its extension. -/
def stem (p : String) : String := String.mk (stemName (fileName p))

/-- link.endswith(".md"). -/
def endsWithMd (s : String) : Bool :=
  decide (s.data.drop (s.data.length - 3) = ['.', 'm', 'd'] ∧ 3 ≤ s.data.length)

/-- _normalize_link: strip a trailing ".md", then return the first indexed path
whose stem equals the link or whose path is the link plus ".md". -/
def normalize_link (keys : List String) (link : String) : Option String :=
  let link' := if endsWithMd link then String.mk (link.data.take (link.data.length - 3))
               else link
  keys.find? (fun fp => stem fp == link' || fp == link' ++ ".md")

/-! ## The index (built by __init__ / _build_indexes) -/

/-- Payload of a note file that was opened, decoded and parsed successfully:
optional front-matter title, body text, front-matter tags. -/
structure FileData where
  title? : Option String
  body : String
  tags : List String
deriving DecidableEq

/-- One file found by the vault scan; data = none models a file that cannot be
opened, decoded, or parsed (the except-and-continue branch). -/
structure RawFile where
  path : String
  data : Option FileData
deriving DecidableEq

/-- A vault root: ok is false when the root does not exist or is not
traversable, files are the markdown files found below it. -/
structure Vault where
  ok : Bool
  files : List RawFile

/-- One entry of _content_index. -/
structure NoteEntry where
  title : String
  content : String
  word_count : ℕ
  tags : List String
deriving DecidableEq

/-- The in-memory indexes: _content_index and _link_graph, keyed by relative
path in scan order.  Backlink counts (_file_stats) are derived below. -/
structure Index where
  content_index : List (String × NoteEntry)
  link_graph : List (String × List String)
deriving DecidableEq

/-- The per-file step of _build_indexes: a parsed file appends its entries, a
bad file contributes nothing. -/
def indexStep (idx : Index) (f : RawFile) : Index :=
  match f.data with
  | none => idx
  | some d =>
    { content_index := idx.content_index ++
        [(f.path, { title := d.title?.getD (stem f.path),
                    content := d.body,
                    word_count := pyWordCount d.body,
                    tags := d.tags })],
      link_graph := idx.link_graph ++ [(f.path, extract_links d.body)] }

/-- The indexing pass of _build_indexes over the scanned files. -/
def build_index_pass (files : List RawFile) : Index :=
  files.foldl indexStep ⟨[], []⟩

/-- The hard failure of the engine constructor (the spec's name for the error
raised when the vault root is missing or not traversable). -/
inductive VaultError where
  | VaultNotFoundError
deriving DecidableEq

/-- Constructing the engine: fail hard when the vault root is missing or not
traversable, otherwise build the indexes, skipping unreadable files. -/
def build_indexes (v : Vault) : Except VaultError Index :=
  if v.ok then .ok (build_index_pass v.files) else .error .VaultNotFoundError

/-- The indexed note paths (keys of _content_index, in insertion order). -/
def noteKeys (idx : Index) : List String := idx.content_index.map (fun e => e.1)

/-- Value lookup in _content_index. -/
def lookupNote (idx : Index) (p : String) : Option NoteEntry :=
  (idx.content_index.find? (fun e => e.1 == p)).map (fun e => e.2)

/-- _link_graph.get(p, []). -/
def lookupLinks (idx : Index) (p : String) : List String :=
  ((idx.link_graph.find? (fun e => e.1 == p)).map (fun e => e.2)).getD []

/-- Number of outgoing links of a note (len of its link-graph entry). -/
def outgoingCount (idx : Index) (p : String) : ℕ := (lookupLinks idx p).length

/-! ## Backlink aggregation (_calculate_backlinks) -/

/-- The loop body of _calculate_backlinks: normalize one link and increment the
counter of the resolved target; an unresolved link contributes nothing. -/
def bumpTarget (keys : List String) (cnt : String → ℕ) (link : String) :
    String → ℕ :=
  match normalize_link keys link with
  | some t => fun x => if x = t then cnt x + 1 else cnt x
  | none => cnt

/-- The double fold of _calculate_backlinks: walk every (source, links) pair in
iteration order and increment a counter keyed by the normalized target. -/
def calc_backlinks (keys : List String) (g : List (String × List String)) :
    String → ℕ :=
  g.foldl (fun cnt sl => sl.2.foldl (bumpTarget keys) cnt) (fun _ => 0)

/-- backlink_count stored into _file_stats for an indexed note. -/
def backlink_count (idx : Index) (p : String) : ℕ :=
  calc_backlinks (noteKeys idx) idx.link_graph p

/-! ## Cosine similarity (_calculate_similarity).  Python float arithmetic is
idealized as exact real arithmetic. -/

/-- set(tokens1 + tokens2): the union of terms of the two notes. -/
def allTerms (t1 t2 : List String) : Finset String := (t1 ++ t2).toFinset

/-- The dot product of the two raw term-count vectors over a term set. -/
def dotOver (s : Finset String) (t1 t2 : List String) : ℕ :=
  ∑ t ∈ s, t1.count t * t2.count t

/-- The squared Euclidean norm of a term-count vector over a term set. -/
def normSqOver (s : Finset String) (tk : List String) : ℕ :=
  ∑ t ∈ s, (tk.count t) ^ 2

/-- _calculate_similarity: tokenize both bodies, return 0 when either token
list is empty, when the union of terms is empty, or when either norm is zero;
otherwise the cosine of the two term-frequency vectors.  The dot product and
the squared norms are Python ints, exact in the program as here; math.sqrt and
the final division are idealized as exact real operations, so this value can
differ from the program's float by final-ulp errors (the program can even
exceed 1 by one ulp) — the claims whose truth depends on those ulps are
reported against the float code, not read off this idealization. -/
noncomputable def calculate_similarity (c1 c2 : String) : ℝ :=
  if tokenize c1 = [] ∨ tokenize c2 = [] then 0
  else if allTerms (tokenize c1) (tokenize c2) = ∅ then 0
  else if Real.sqrt (normSqOver (allTerms (tokenize c1) (tokenize c2)) (tokenize c1)) = 0
          ∨ Real.sqrt (normSqOver (allTerms (tokenize c1) (tokenize c2)) (tokenize c2)) = 0 then 0
  else (dotOver (allTerms (tokenize c1) (tokenize c2)) (tokenize c1) (tokenize c2) : ℝ) /
    (Real.sqrt (normSqOver (allTerms (tokenize c1) (tokenize c2)) (tokenize c1)) *
     Real.sqrt (normSqOver (allTerms (tokenize c1) (tokenize c2)) (tokenize c2)))

/-! ## find_similar_notes -/

/-- content[:200] + "..." when the body is longer than 200 characters. -/
def preview (c : String) : String :=
  if 200 < c.length then c.take 200 ++ "..." else c

/-- One result row of find_similar_notes. -/
structure SimilarEntry where
  path : String
  title : String
  similarity : ℝ
  word_count : ℕ
  common_tags : List String
  preview : String

open Classical in
/-- find_similar_notes: empty when the target is not indexed; otherwise every
other note whose similarity reaches the threshold, sorted descending by
similarity and capped at the limit. -/
noncomputable def find_similar_notes (idx : Index) (target_path : String)
    (threshold : ℝ) (limit : ℕ) : List SimilarEntry :=
  match lookupNote idx target_path with
  | none => []
  | some tgt =>
    let sims := idx.content_index.filterMap (fun pe =>
      if pe.1 = target_path then none
      else if threshold ≤ calculate_similarity tgt.content pe.2.content then
        some { path := pe.1, title := pe.2.title,
               similarity := calculate_similarity tgt.content pe.2.content,
               word_count := pe.2.word_count,
               common_tags := tgt.tags.filter (fun t => pe.2.tags.contains t),
               preview := preview pe.2.content }
      else none)
    (sims.insertionSort (fun a b => b.similarity ≤ a.similarity)).take limit

/-! ## suggest_missing_backlinks -/

/-- Python substring containment (x in y for str). -/
def isSubstrOf (s t : String) : Prop := s.data <:+: t.data

instance (s t : String) : Decidable (isSubstrOf s t) :=
  List.decidableInfix s.data t.data

/-- One suggestion row of suggest_missing_backlinks. -/
structure BacklinkSuggestion where
  target_note : String
  target_title : String
  relevance_score : ℚ
  backlink_count : ℕ
  common_tags : List String
deriving DecidableEq

/-- suggest_missing_backlinks: empty when the note is not indexed; otherwise
every other note whose (lowercased) title occurs in the note body, or at least
two of whose long title words occur there, unless its stem already occurs in
an existing outgoing link; scored, sorted descending, capped at 10. -/
def suggest_missing_backlinks (idx : Index) (note_path : String) :
    List BacklinkSuggestion :=
  match lookupNote idx note_path with
  | none => []
  | some nd =>
    let note_content := lowerStr nd.content
    let existing_links := (lookupLinks idx note_path).map lowerStr
    let sugg := idx.content_index.filterMap (fun pe =>
      if pe.1 = note_path then none
      else
        let title := lowerStr pe.2.title
        let title_words := pySplit title
        let title_in_content := isSubstrOf title note_content
        let partial_matches :=
          (title_words.filter
            (fun w => decide (3 < w.length) && decide (isSubstrOf w note_content))).length
        let already_linked :=
          existing_links.any (fun link => decide (isSubstrOf (lowerStr (stem pe.1)) link))
        if (title_in_content ∨ 2 ≤ partial_matches) ∧ already_linked = false then
          some { target_note := pe.1, target_title := pe.2.title,
                 relevance_score := (partial_matches : ℚ) / (max title_words.length 1) +
                   (if title_in_content then 1/2 else 0),
                 backlink_count := backlink_count idx pe.1,
                 common_tags := nd.tags.filter (fun t => pe.2.tags.contains t) }
        else none)
    (sugg.insertionSort (fun a b => b.relevance_score ≤ a.relevance_score)).take 10

/-! ## detect_duplicate_content and identify_orphaned_notes -/

/-- All ordered pairs (l[i], l[j]) with i < j, in iteration order of the
double loop of detect_duplicate_content. -/
def pairsAfter : List α → List (α × α)
  | [] => []
  | x :: xs => (xs.map (fun y => (x, y))) ++ pairsAfter xs

open Classical in
/-- detect_duplicate_content, reduced to the list of unordered note pairs that
reach the similarity threshold (the only datum the health report consumes). -/
noncomputable def duplicate_pairs (idx : Index) (threshold : ℝ) :
    List (String × String) :=
  ((pairsAfter idx.content_index).filter
    (fun pr => threshold ≤ calculate_similarity pr.1.2.content pr.2.2.content)).map
    (fun pr => (pr.1.1, pr.2.1))

/-- One row of identify_orphaned_notes. -/
structure OrphanEntry where
  path : String
  title : String
  word_count : ℕ
  outgoing_links : ℕ
  tags : List String
deriving DecidableEq

/-- identify_orphaned_notes: notes with zero backlinks and at most one outgoing
link, sorted by word count descending. -/
def identify_orphaned_notes (idx : Index) : List OrphanEntry :=
  let orphans := idx.content_index.filterMap (fun pe =>
    if backlink_count idx pe.1 = 0 ∧ outgoingCount idx pe.1 ≤ 1 then
      some { path := pe.1, title := pe.2.title, word_count := pe.2.word_count,
             outgoing_links := outgoingCount idx pe.1, tags := pe.2.tags }
    else none)
  orphans.insertionSort (fun a b => b.word_count ≤ a.word_count)

/-! ## Health scores (get_vault_health_report) -/

/-- len(self._content_index). -/
def totalNotes (idx : Index) : ℕ := idx.content_index.length

/-- Number of notes with at least one backlink. -/
def notesWithBacklinks (idx : Index) : ℕ :=
  (idx.content_index.filter (fun pe => decide (0 < backlink_count idx pe.1))).length

/-- Round a rational to the nearest integer, ties to even — the rounding mode
of IEEE-754 arithmetic. -/
def roundHalfEven (x : ℚ) : ℤ :=
  if x - ⌊x⌋ < 1/2 then ⌊x⌋
  else if 1/2 < x - ⌊x⌋ then ⌊x⌋ + 1
  else if 2 ∣ ⌊x⌋ then ⌊x⌋ else ⌊x⌋ + 1

/-- IEEE-754 binary64 rounding: round to 53 significant bits, to nearest, ties
to even.  The exponent is left unbounded, which agrees bit for bit with
binary64 over the whole value range this engine produces (no overflow, no
subnormals).  Python's int/int true division and float multiplication are the
correctly rounded operations fl64 (a / b) and fl64 (a * b). -/
def fl64 (q : ℚ) : ℚ :=
  if q = 0 then 0
  else
    (roundHalfEven (q / (2:ℚ) ^ (Int.log 2 |q| - 52)) : ℤ) *
      (2:ℚ) ^ (Int.log 2 |q| - 52)

/-- connectivity_ratio: guarded float division of the two counts
(notes_with_backlinks / total_notes in binary64, else the int 0). -/
def connectivity_ratio (idx : Index) : ℚ :=
  if 0 < totalNotes idx then
    fl64 ((notesWithBacklinks idx : ℚ) / (totalNotes idx)) else 0

/-- Python int() applied to a rational: truncation toward zero. -/
def pyInt (q : ℚ) : ℤ := if 0 ≤ q then ⌊q⌋ else ⌈q⌉

/-- health_scores["connectivity"] = min(100, int(connectivity_ratio * 100)),
the product being the binary64 rounding of connectivity_ratio × 100. -/
def healthConnectivity (idx : Index) : ℤ :=
  min 100 (pyInt (fl64 (connectivity_ratio idx * 100)))

/-- health_scores["organization"] =
min(100, max(0, 100 - orphanCount / max(totalNotes, 1) * 100)). -/
def healthOrganization (idx : Index) : ℚ :=
  min 100 (max 0 (100 - ((identify_orphaned_notes idx).length : ℚ) /
    (max (totalNotes idx) 1 : ℕ) * 100))

/-- health_scores["uniqueness"] =
min(100, max(0, 100 - duplicateCount / max(totalNotes, 1) * 200)), the
duplicate count taken from detect_duplicate_content() at its 0.7 default. -/
noncomputable def healthUniqueness (idx : Index) : ℚ :=
  min 100 (max 0 (100 - ((duplicate_pairs idx (7/10 : ℝ)).length : ℚ) /
    (max (totalNotes idx) 1 : ℕ) * 200))

/-- The health_scores component of get_vault_health_report. -/
structure HealthScores where
  connectivity : ℤ
  organization : ℚ
  uniqueness : ℚ

/-- The three sub-scores assembled by get_vault_health_report. -/
noncomputable def health_scores (idx : Index) : HealthScores :=
  { connectivity := healthConnectivity idx,
    organization := healthOrganization idx,
    uniqueness := healthUniqueness idx }

/-! ## Helper lemmas -/

theorem lookupNote_eq_none_of_not_mem (idx : Index) (p : String)
    (h : p ∉ noteKeys idx) : lookupNote idx p = none := by
  unfold lookupNote
  rw [List.find?_eq_none.mpr]
  · rfl
  · intro e he
    simp only [beq_iff_eq]
    intro hep
    exact h (hep ▸ List.mem_map_of_mem (fun x => x.1) he)

theorem build_index_pass_skips_bad (files : List RawFile) :
    ∀ idx0 : Index, files.foldl indexStep idx0 =
      (files.filter (fun f => f.data.isSome)).foldl indexStep idx0 := by
  induction files with
  | nil => intro idx0; rfl
  | cons f fs ih =>
    intro idx0
    match hd : f.data with
    | none =>
      have hstep : indexStep idx0 f = idx0 := by unfold indexStep; rw [hd]
      simp only [List.foldl_cons, List.filter_cons, hd, Option.isSome_none,
        Bool.false_eq_true, if_false, hstep]
      exact ih idx0
    | some d =>
      simp only [List.foldl_cons, List.filter_cons, hd, Option.isSome_some, if_true]
      exact ih _

end VaultIntelligence

namespace VaultIntelligence

/-! ## Concrete example vaults used by the witnesses and counterexamples -/

/-- Example vault for C1: one readable note, one unreadable file. -/
def filesEx1 : List RawFile :=
  [⟨"good.md", some ⟨none, "hello world", []⟩⟩, ⟨"bad.md", none⟩]

/-- Example vault for C2: three notes, two of which have one backlink each. -/
def idxEx2 : Index :=
  build_index_pass
    [⟨"a.md", some ⟨none, "[[b]] [[c]]", []⟩⟩,
     ⟨"b.md", some ⟨none, "", []⟩⟩,
     ⟨"c.md", some ⟨none, "", []⟩⟩]

/-! ## C1 -/

/-- C1: constructing the engine on a missing or untraversable vault root fails
with VaultNotFoundError, and this is the only hard failure: on a traversable
root the build always succeeds, and every file that cannot be opened, decoded
or parsed is silently skipped, the resulting index being exactly the index of
the remaining files. -/
theorem build_indexes_error_model (v : Vault) :
    (v.ok = false → build_indexes v = .error .VaultNotFoundError) ∧
    (v.ok = true → build_indexes v = .ok (build_index_pass v.files) ∧
      build_index_pass v.files =
        build_index_pass (v.files.filter (fun f => f.data.isSome))) := by
  constructor
  · intro h; unfold build_indexes; rw [h]; rfl
  · intro h
    constructor
    · unfold build_indexes; rw [h]; rfl
    · exact build_index_pass_skips_bad v.files ⟨[], []⟩

theorem build_indexes_error_model_witness :
    build_indexes ⟨false, filesEx1⟩ = .error .VaultNotFoundError ∧
    build_indexes ⟨true, filesEx1⟩ = .ok (build_index_pass filesEx1) ∧
    build_index_pass filesEx1 =
      build_index_pass (filesEx1.filter (fun f => f.data.isSome)) :=
  ⟨(build_indexes_error_model ⟨false, filesEx1⟩).1 rfl,
   (build_indexes_error_model ⟨true, filesEx1⟩).2 rfl⟩

/-! ## C2: the connectivity score under binary64 arithmetic -/

theorem roundHalfEven_abs_le (x : ℚ) : |((roundHalfEven x : ℤ) : ℚ) - x| ≤ 1/2 := by
  have h0 : ((⌊x⌋ : ℤ) : ℚ) ≤ x := Int.floor_le x
  have h1 : x < ⌊x⌋ + 1 := Int.lt_floor_add_one x
  unfold roundHalfEven
  split_ifs with ha hb hc
  · rw [abs_le]
    constructor <;> push_cast <;> linarith
  · rw [abs_le]
    constructor <;> push_cast <;> linarith
  · have he : x - ⌊x⌋ = 1/2 := le_antisymm (not_lt.mp hb) (not_lt.mp ha)
    rw [abs_le]
    constructor <;> push_cast <;> linarith
  · have he : x - ⌊x⌋ = 1/2 := le_antisymm (not_lt.mp hb) (not_lt.mp ha)
    rw [abs_le]
    constructor <;> push_cast <;> linarith

theorem roundHalfEven_nonneg (x : ℚ) (h : 0 ≤ x) : 0 ≤ roundHalfEven x := by
  have hf : 0 ≤ ⌊x⌋ := Int.floor_nonneg.mpr h
  unfold roundHalfEven
  split_ifs <;> omega

theorem fl64_zero : fl64 0 = 0 := by
  unfold fl64
  simp

theorem fl64_nonneg (q : ℚ) (h : 0 ≤ q) : 0 ≤ fl64 q := by
  unfold fl64
  split_ifs with h0
  · exact le_refl 0
  · have hp : (0:ℚ) < (2:ℚ) ^ (Int.log 2 |q| - 52) := zpow_pos (by norm_num) _
    have hqe : 0 ≤ q / (2:ℚ) ^ (Int.log 2 |q| - 52) := div_nonneg h hp.le
    exact mul_nonneg (by exact_mod_cast roundHalfEven_nonneg _ hqe) hp.le

theorem fl64_abs_error (q : ℚ) (hq : q ≠ 0) :
    |fl64 q - q| ≤ |q| / 9007199254740992 := by
  unfold fl64
  rw [if_neg hq]
  have hp : (0:ℚ) < (2:ℚ) ^ (Int.log 2 |q| - 52) := zpow_pos (by norm_num) _
  have hfact : (roundHalfEven (q / (2:ℚ) ^ (Int.log 2 |q| - 52)) : ℚ) *
        (2:ℚ) ^ (Int.log 2 |q| - 52) - q =
      ((roundHalfEven (q / (2:ℚ) ^ (Int.log 2 |q| - 52)) : ℚ) -
        q / (2:ℚ) ^ (Int.log 2 |q| - 52)) * (2:ℚ) ^ (Int.log 2 |q| - 52) := by
    field_simp
  rw [hfact, abs_mul, abs_of_pos hp]
  have hr := roundHalfEven_abs_le (q / (2:ℚ) ^ (Int.log 2 |q| - 52))
  have hstep : |(roundHalfEven (q / (2:ℚ) ^ (Int.log 2 |q| - 52)) : ℚ) -
        q / (2:ℚ) ^ (Int.log 2 |q| - 52)| * (2:ℚ) ^ (Int.log 2 |q| - 52) ≤
      (1/2) * (2:ℚ) ^ (Int.log 2 |q| - 52) :=
    mul_le_mul_of_nonneg_right hr hp.le
  refine le_trans hstep ?_
  have hlog : ((2:ℕ):ℚ) ^ (Int.log 2 |q|) ≤ |q| :=
    Int.zpow_log_le_self (by norm_num) (abs_pos.mpr hq)
  have hcast : ((2:ℕ):ℚ) = (2:ℚ) := by norm_num
  rw [hcast] at hlog
  have hsplit : (2:ℚ) ^ (Int.log 2 |q| - 52) =
      (2:ℚ) ^ (Int.log 2 |q|) / (2:ℚ) ^ (52:ℤ) := by
    rw [zpow_sub₀ (by norm_num : (2:ℚ) ≠ 0)]
  rw [hsplit]
  have h52 : ((2:ℚ) ^ (52:ℤ)) = 4503599627370496 := by norm_num
  rw [h52]
  calc (1:ℚ)/2 * ((2:ℚ) ^ (Int.log 2 |q|) / 4503599627370496)
      = (2:ℚ) ^ (Int.log 2 |q|) / 9007199254740992 := by ring
    _ ≤ |q| / 9007199254740992 := by
        exact (div_le_div_right (by norm_num)).mpr hlog

theorem int_log2_eq (q : ℚ) (e : ℤ) (hq : 0 < q) (h1 : (2:ℚ)^e ≤ q)
    (h2 : q < (2:ℚ)^(e+1)) : Int.log 2 q = e := by
  have hle := (Int.zpow_le_iff_le_log (show (1:ℕ) < 2 by norm_num) hq).mp
    (by exact_mod_cast h1)
  have hlt := (Int.lt_zpow_iff_log_lt (show (1:ℕ) < 2 by norm_num) hq).mp
    (by exact_mod_cast h2)
  omega

theorem fl64_eq_of (q : ℚ) (L m : ℤ) (hq : 0 < q)
    (h1 : (2:ℚ)^L ≤ q) (h2 : q < (2:ℚ)^(L+1))
    (hm : roundHalfEven (q / (2:ℚ) ^ (L - 52)) = m) :
    fl64 q = (m : ℚ) * (2:ℚ) ^ (L - 52) := by
  unfold fl64
  rw [if_neg (ne_of_gt hq), abs_of_pos hq, int_log2_eq q L hq h1 h2, hm]

theorem notesWithBacklinks_le (idx : Index) :
    notesWithBacklinks idx ≤ totalNotes idx :=
  List.length_filter_le _ _

/-- The heart of the amended C2: under binary64 rounding of the ratio and the
product, the truncated score stays within one of the exact floor. -/
theorem connectivity_float_close (n T : ℕ) (hT : 0 < T) (hnT : n ≤ T) :
    |min 100 (pyInt (fl64 (fl64 ((n:ℚ)/(T:ℚ)) * 100))) -
      min 100 ⌊100 * (n:ℚ) / (T:ℚ)⌋| ≤ 1 := by
  by_cases hn : n = 0
  · subst hn
    have hz : ((0:ℕ):ℚ)/(T:ℚ) = 0 := by norm_num
    rw [hz, fl64_zero]
    have hz2 : (0:ℚ) * 100 = 0 := by norm_num
    rw [hz2, fl64_zero]
    have hz3 : 100 * ((0:ℕ):ℚ) / (T:ℚ) = 0 := by norm_num
    rw [hz3]
    unfold pyInt
    norm_num
  · have hT' : (0:ℚ) < (T:ℚ) := by exact_mod_cast hT
    have hr : (0:ℚ) < (n:ℚ)/(T:ℚ) := by
      apply div_pos _ hT'
      exact_mod_cast Nat.pos_of_ne_zero hn
    have hr1 : (n:ℚ)/(T:ℚ) ≤ 1 := by
      rw [div_le_one hT']
      exact_mod_cast hnT
    have hyb : |fl64 ((n:ℚ)/(T:ℚ)) - (n:ℚ)/(T:ℚ)| ≤
        ((n:ℚ)/(T:ℚ)) / 9007199254740992 := by
      have := fl64_abs_error ((n:ℚ)/(T:ℚ)) (ne_of_gt hr)
      rwa [abs_of_pos hr] at this
    have hrr : ((n:ℚ)/(T:ℚ)) / 9007199254740992 < (n:ℚ)/(T:ℚ) :=
      div_lt_self hr (by norm_num)
    have hy_pos : 0 < fl64 ((n:ℚ)/(T:ℚ)) := by
      rcases abs_le.mp hyb with ⟨hlo, _⟩
      linarith
    have hy_up : fl64 ((n:ℚ)/(T:ℚ)) ≤ 2 * ((n:ℚ)/(T:ℚ)) := by
      rcases abs_le.mp hyb with ⟨_, hhi⟩
      linarith
    have hmul_pos : (0:ℚ) < fl64 ((n:ℚ)/(T:ℚ)) * 100 := by linarith
    have hx : |fl64 (fl64 ((n:ℚ)/(T:ℚ)) * 100) - fl64 ((n:ℚ)/(T:ℚ)) * 100| ≤
        (fl64 ((n:ℚ)/(T:ℚ)) * 100) / 9007199254740992 := by
      have := fl64_abs_error (fl64 ((n:ℚ)/(T:ℚ)) * 100) (ne_of_gt hmul_pos)
      rwa [abs_of_pos hmul_pos] at this
    have hmid : |fl64 ((n:ℚ)/(T:ℚ)) * 100 - 100 * ((n:ℚ)/(T:ℚ))| =
        100 * |fl64 ((n:ℚ)/(T:ℚ)) - (n:ℚ)/(T:ℚ)| := by
      rw [show fl64 ((n:ℚ)/(T:ℚ)) * 100 - 100 * ((n:ℚ)/(T:ℚ)) =
        100 * (fl64 ((n:ℚ)/(T:ℚ)) - (n:ℚ)/(T:ℚ)) by ring, abs_mul,
        abs_of_pos (by norm_num : (0:ℚ) < 100)]
    have htri : |fl64 (fl64 ((n:ℚ)/(T:ℚ)) * 100) - 100 * ((n:ℚ)/(T:ℚ))| ≤
        |fl64 (fl64 ((n:ℚ)/(T:ℚ)) * 100) - fl64 ((n:ℚ)/(T:ℚ)) * 100| +
          |fl64 ((n:ℚ)/(T:ℚ)) * 100 - 100 * ((n:ℚ)/(T:ℚ))| :=
      abs_sub_le _ _ _
    have herr : |fl64 (fl64 ((n:ℚ)/(T:ℚ)) * 100) - 100 * ((n:ℚ)/(T:ℚ))| < 1 := by
      have hb1 : (fl64 ((n:ℚ)/(T:ℚ)) * 100) / 9007199254740992 ≤
          (2 * ((n:ℚ)/(T:ℚ)) * 100) / 9007199254740992 := by
        apply div_le_div_of_nonneg_right ?_ (by norm_num)
        · linarith
      have hb2 : 100 * |fl64 ((n:ℚ)/(T:ℚ)) - (n:ℚ)/(T:ℚ)| ≤
          100 * (((n:ℚ)/(T:ℚ)) / 9007199254740992) :=
        mul_le_mul_of_nonneg_left hyb (by norm_num)
      have hfin : (2 * ((n:ℚ)/(T:ℚ)) * 100) / 9007199254740992 +
          100 * (((n:ℚ)/(T:ℚ)) / 9007199254740992) < 1 := by
        have : (2 * ((n:ℚ)/(T:ℚ)) * 100) / 9007199254740992 +
            100 * (((n:ℚ)/(T:ℚ)) / 9007199254740992) =
            ((n:ℚ)/(T:ℚ)) * (300 / 9007199254740992) := by ring
        rw [this]
        calc ((n:ℚ)/(T:ℚ)) * (300 / 9007199254740992) ≤
            1 * (300 / 9007199254740992) :=
              mul_le_mul_of_nonneg_right hr1 (by norm_num)
          _ < 1 := by norm_num
      calc |fl64 (fl64 ((n:ℚ)/(T:ℚ)) * 100) - 100 * ((n:ℚ)/(T:ℚ))| ≤
          |fl64 (fl64 ((n:ℚ)/(T:ℚ)) * 100) - fl64 ((n:ℚ)/(T:ℚ)) * 100| +
            |fl64 ((n:ℚ)/(T:ℚ)) * 100 - 100 * ((n:ℚ)/(T:ℚ))| := htri
        _ ≤ (2 * ((n:ℚ)/(T:ℚ)) * 100) / 9007199254740992 +
            100 * (((n:ℚ)/(T:ℚ)) / 9007199254740992) := by
              rw [hmid] at *
              linarith [le_trans hx hb1, hb2]
        _ < 1 := hfin
    have hx0 : 0 ≤ fl64 (fl64 ((n:ℚ)/(T:ℚ)) * 100) := fl64_nonneg _ hmul_pos.le
    have hveq : 100 * ((n:ℚ)/(T:ℚ)) = 100 * (n:ℚ) / (T:ℚ) := by ring
    rw [hveq] at herr
    rcases abs_lt.mp herr with ⟨hlo, hhi⟩
    have hfl_lo : ⌊100 * (n:ℚ) / (T:ℚ)⌋ - 1 ≤ ⌊fl64 (fl64 ((n:ℚ)/(T:ℚ)) * 100)⌋ := by
      have hle : 100 * (n:ℚ) / (T:ℚ) - ((1:ℤ):ℚ) ≤ fl64 (fl64 ((n:ℚ)/(T:ℚ)) * 100) := by
        push_cast
        linarith
      have := Int.floor_le_floor hle
      rwa [Int.floor_sub_int] at this
    have hfl_hi : ⌊fl64 (fl64 ((n:ℚ)/(T:ℚ)) * 100)⌋ ≤ ⌊100 * (n:ℚ) / (T:ℚ)⌋ + 1 := by
      have hle : fl64 (fl64 ((n:ℚ)/(T:ℚ)) * 100) ≤ 100 * (n:ℚ) / (T:ℚ) + ((1:ℤ):ℚ) := by
        push_cast
        linarith
      have := Int.floor_le_floor hle
      rwa [Int.floor_add_int] at this
    unfold pyInt
    rw [if_pos hx0, abs_le]
    constructor <;> omega

/-- C2 counterexample: on a three-note vault where two notes have a backlink,
the code's connectivity sub-score is 66 (int() truncates the float product
66.666...), while the claimed formula min(100, round(100 × 2/3)) gives 67. -/
theorem connectivity_round_counterexample :
    (health_scores idxEx2).connectivity ≠
      min 100 (round (100 * (notesWithBacklinks idxEx2 : ℚ) / (totalNotes idxEx2 : ℚ))) := by
  have h1 : totalNotes idxEx2 = 3 := by decide
  have h2 : notesWithBacklinks idxEx2 = 2 := by decide
  have hfl23 : fl64 ((2:ℚ)/3) = 6004799503160661/9007199254740992 := by
    have hrhe : roundHalfEven (((2:ℚ)/3) / (2:ℚ) ^ ((-1:ℤ) - 52)) = 6004799503160661 := by
      have hv : ((2:ℚ)/3) / (2:ℚ) ^ ((-1:ℤ) - 52) = 18014398509481984/3 := by norm_num
      rw [hv]
      have hfl : (⌊(18014398509481984:ℚ)/3⌋ : ℤ) = 6004799503160661 := by norm_num
      unfold roundHalfEven
      rw [hfl, if_pos (by norm_num)]
    have := fl64_eq_of ((2:ℚ)/3) (-1) 6004799503160661 (by norm_num)
      (by norm_num) (by norm_num) hrhe
    rw [this]
    norm_num
  have hflmul : fl64 ((6004799503160661:ℚ)/9007199254740992 * 100) =
      4691249611844266/70368744177664 := by
    have hrhe : roundHalfEven (((6004799503160661:ℚ)/9007199254740992 * 100) /
        (2:ℚ) ^ ((6:ℤ) - 52)) = 4691249611844266 := by
      have hv : ((6004799503160661:ℚ)/9007199254740992 * 100) /
          (2:ℚ) ^ ((6:ℤ) - 52) = 150119987579016525/32 := by norm_num
      rw [hv]
      have hfl : (⌊(150119987579016525:ℚ)/32⌋ : ℤ) = 4691249611844266 := by norm_num
      unfold roundHalfEven
      rw [hfl, if_pos (by norm_num)]
    have := fl64_eq_of ((6004799503160661:ℚ)/9007199254740992 * 100) 6
      4691249611844266 (by norm_num) (by norm_num) (by norm_num) hrhe
    rw [this]
    norm_num
  have hcode : (health_scores idxEx2).connectivity = 66 := by
    show healthConnectivity idxEx2 = 66
    unfold healthConnectivity connectivity_ratio
    rw [h1, h2, if_pos (by norm_num : (0:ℕ) < 3)]
    have hcast : ((2:ℕ):ℚ) / ((3:ℕ):ℚ) = (2:ℚ)/3 := by norm_num
    rw [hcast, hfl23, hflmul]
    unfold pyInt
    rw [if_pos (by norm_num)]
    have hfloor : (⌊(4691249611844266:ℚ)/70368744177664⌋ : ℤ) = 66 := by norm_num
    rw [hfloor]
    norm_num
  have hclaim : min 100 (round (100 * (notesWithBacklinks idxEx2 : ℚ) / (totalNotes idxEx2 : ℚ)))
      = 67 := by
    rw [h1, h2]
    norm_num [round_eq]
  rw [hcode, hclaim]
  norm_num

/-- C2 (amended): for every indexed vault with totalNotes > 0, the health
report's connectivity sub-score is the truncation — not the rounding — of the
binary64 evaluation of (notesWithAnyBacklink / totalNotes) × 100, clamped at
100; consequently it always lies within one of
min(100, floor(100 × notesWithAnyBacklink / totalNotes)), and the float
rounding of the ratio can make it fall below that exact floor (the code
yields 66 where the claimed round formula yields 67 at 2 of 3 notes, and
int(0.29 × 100) = 28 at 29 of 100 notes where the exact floor is 29). -/
theorem connectivity_score_float (idx : Index) (h : 0 < totalNotes idx) :
    (health_scores idx).connectivity =
      min 100 (pyInt (fl64 (fl64 ((notesWithBacklinks idx : ℚ) /
        (totalNotes idx : ℚ)) * 100))) ∧
    |(health_scores idx).connectivity -
      min 100 ⌊100 * (notesWithBacklinks idx : ℚ) / (totalNotes idx : ℚ)⌋| ≤ 1 := by
  have hdef : (health_scores idx).connectivity =
      min 100 (pyInt (fl64 (fl64 ((notesWithBacklinks idx : ℚ) /
        (totalNotes idx : ℚ)) * 100))) := by
    show healthConnectivity idx = _
    unfold healthConnectivity connectivity_ratio
    rw [if_pos h]
  refine ⟨hdef, ?_⟩
  rw [hdef]
  exact connectivity_float_close (notesWithBacklinks idx) (totalNotes idx) h
    (notesWithBacklinks_le idx)

theorem connectivity_score_float_witness :
    (health_scores idxEx2).connectivity =
      min 100 (pyInt (fl64 (fl64 ((notesWithBacklinks idxEx2 : ℚ) /
        (totalNotes idxEx2 : ℚ)) * 100))) ∧
    |(health_scores idxEx2).connectivity -
      min 100 ⌊100 * (notesWithBacklinks idxEx2 : ℚ) / (totalNotes idxEx2 : ℚ)⌋| ≤ 1 :=
  connectivity_score_float idxEx2 (by decide)

/-! ## C8 -/

/-- C8: for every indexed vault, including the degenerate vault with zero
notes, each of the three health sub-scores is a defined value in [0, 100]; the
guarded ratios never divide by zero. -/
theorem health_scores_bounded (idx : Index) :
    (0 ≤ (health_scores idx).connectivity ∧ (health_scores idx).connectivity ≤ 100) ∧
    (0 ≤ (health_scores idx).organization ∧ (health_scores idx).organization ≤ 100) ∧
    (0 ≤ (health_scores idx).uniqueness ∧ (health_scores idx).uniqueness ≤ 100) := by
  refine ⟨⟨?_, ?_⟩, ⟨?_, ?_⟩, ⟨?_, ?_⟩⟩
  · show (0 : ℤ) ≤ min 100 (pyInt (fl64 (connectivity_ratio idx * 100)))
    have hr : (0 : ℚ) ≤ connectivity_ratio idx := by
      unfold connectivity_ratio
      split
      · exact fl64_nonneg _ (by positivity)
      · exact le_refl 0
    have hx : (0 : ℚ) ≤ fl64 (connectivity_ratio idx * 100) :=
      fl64_nonneg _ (mul_nonneg hr (by norm_num))
    refine le_min (by norm_num) ?_
    unfold pyInt
    rw [if_pos hx]
    exact Int.floor_nonneg.mpr hx
  · exact min_le_left _ _
  · exact le_min (by norm_num) (le_max_left _ _)
  · exact min_le_left _ _
  · exact le_min (by norm_num) (le_max_left _ _)
  · exact min_le_left _ _

/-! ## C10 -/

/-- C10: for every target path not present in the index, find_similar_notes
returns the empty result rather than raising, and suggest_missing_backlinks on
an unindexed path likewise returns the empty list. -/
theorem unindexed_target_empty (idx : Index) (p : String) (t : ℝ) (lim : ℕ)
    (h : p ∉ noteKeys idx) :
    find_similar_notes idx p t lim = [] ∧ suggest_missing_backlinks idx p = [] := by
  have h0 := lookupNote_eq_none_of_not_mem idx p h
  constructor
  · unfold find_similar_notes; rw [h0]
  · unfold suggest_missing_backlinks; rw [h0]

theorem unindexed_target_empty_witness :
    find_similar_notes idxEx2 "zzz.md" (3/10 : ℝ) 10 = [] ∧
    suggest_missing_backlinks idxEx2 "zzz.md" = [] :=
  unindexed_target_empty idxEx2 "zzz.md" (3/10 : ℝ) 10 (by decide)

/-! ## C4: backlink aggregation invariants -/

theorem foldl_bumpTarget (keys : List String) (links : List String) :
    ∀ (cnt : String → ℕ) (x : String),
      (links.foldl (bumpTarget keys) cnt) x =
        cnt x + links.countP (fun l => normalize_link keys l == some x) := by
  induction links with
  | nil => intro cnt x; simp
  | cons l ls ih =>
    intro cnt x
    rw [List.foldl_cons, ih, List.countP_cons]
    cases hn : normalize_link keys l with
    | none =>
      have hstep : bumpTarget keys cnt l = cnt := by unfold bumpTarget; rw [hn]
      rw [hstep]
      simp
    | some t =>
      have hstep : bumpTarget keys cnt l x = if x = t then cnt x + 1 else cnt x := by
        unfold bumpTarget; rw [hn]
      rw [hstep]
      by_cases hx : x = t
      · subst hx
        rw [if_pos rfl]
        have hb : (some x == some x : Bool) = true := beq_self_eq_true _
        rw [hb, if_pos rfl]
        omega
      · rw [if_neg hx]
        have hb : (some t == some x : Bool) = false :=
          beq_eq_false_iff_ne.mpr (fun ht => hx (Option.some.inj ht).symm)
        rw [hb]
        simp only [Bool.false_eq_true, if_false]
        omega

theorem calc_backlinks_eq_sum (keys : List String)
    (g : List (String × List String)) (x : String) :
    calc_backlinks keys g x =
      (g.map (fun sl => sl.2.countP (fun l => normalize_link keys l == some x))).sum := by
  suffices h : ∀ (cnt : String → ℕ),
      (g.foldl (fun cnt sl => sl.2.foldl (bumpTarget keys) cnt) cnt) x =
        cnt x +
          (g.map (fun sl => sl.2.countP (fun l => normalize_link keys l == some x))).sum by
    have := h (fun _ => 0)
    unfold calc_backlinks
    omega
  induction g with
  | nil => intro cnt; simp
  | cons sl g' ih =>
    intro cnt
    rw [List.foldl_cons, ih, foldl_bumpTarget, List.map_cons, List.sum_cons]
    omega

theorem sum_map_add_nat (keys : List String) (f g : String → ℕ) :
    (keys.map (fun p => f p + g p)).sum = (keys.map f).sum + (keys.map g).sum := by
  induction keys with
  | nil => simp
  | cons k ks ih => simp only [List.map_cons, List.sum_cons, ih]; omega

theorem sum_map_indicator (keys : List String) (t : String) :
    (keys.map (fun p => if (t == p : Bool) then 1 else 0)).sum = keys.count t := by
  induction keys with
  | nil => simp
  | cons k ks ih =>
    rw [List.map_cons, List.sum_cons, ih, List.count_cons]
    by_cases hk : t = k
    · subst hk
      simp [Nat.add_comm]
    · simp [beq_eq_false_iff_ne.mpr hk, beq_eq_false_iff_ne.mpr (fun h => hk h.symm)]

theorem normalize_link_mem (keys : List String) (l t : String)
    (h : normalize_link keys l = some t) : t ∈ keys := by
  unfold normalize_link at h
  exact List.mem_of_find?_eq_some h

theorem sum_indicator_norm (keys : List String) (h : keys.Nodup) (l : String) :
    (keys.map (fun p => if (normalize_link keys l == some p : Bool) then 1 else 0)).sum =
      if (normalize_link keys l).isSome then 1 else 0 := by
  cases hn : normalize_link keys l with
  | none => simp
  | some t =>
    have ht : t ∈ keys := normalize_link_mem keys l t hn
    have hs : (keys.map (fun p => if (t == p : Bool) then 1 else 0)).sum = 1 := by
      rw [sum_map_indicator, List.count_eq_one_of_mem h ht]
    simpa using hs

theorem countP_resolved (keys : List String) (h : keys.Nodup) (links : List String) :
    (keys.map (fun p => links.countP (fun l => normalize_link keys l == some p))).sum =
      links.countP (fun l => (normalize_link keys l).isSome) := by
  induction links with
  | nil => simp
  | cons l ls ih =>
    have hsplit : ∀ p : String,
        (l :: ls).countP (fun l' => normalize_link keys l' == some p) =
          (if (normalize_link keys l == some p : Bool) then 1 else 0) +
            ls.countP (fun l' => normalize_link keys l' == some p) := by
      intro p; rw [List.countP_cons]; omega
    calc (keys.map (fun p => (l :: ls).countP (fun l' => normalize_link keys l' == some p))).sum
        = (keys.map (fun p =>
            (if (normalize_link keys l == some p : Bool) then 1 else 0) +
              ls.countP (fun l' => normalize_link keys l' == some p))).sum := by
          exact congrArg List.sum (List.map_congr_left (fun p _ => hsplit p))
      _ = (keys.map (fun p => if (normalize_link keys l == some p : Bool) then 1 else 0)).sum +
            (keys.map (fun p => ls.countP (fun l' => normalize_link keys l' == some p))).sum :=
          sum_map_add_nat keys _ _
      _ = (l :: ls).countP (fun l' => (normalize_link keys l').isSome) := by
          rw [ih, List.countP_cons, sum_indicator_norm keys h l]
          omega

theorem calc_backlinks_perm (keys : List String) {g g' : List (String × List String)}
    (h : g.Perm g') : calc_backlinks keys g = calc_backlinks keys g' := by
  funext x
  rw [calc_backlinks_eq_sum, calc_backlinks_eq_sum]
  exact (h.map _).sum_eq

/-- C4: for a fixed index with distinct note paths, the sum over all notes of
the stored backlink counts equals the number of outgoing links (over all link
lists) that normalize to an existing note path, and the counts are invariant
under any permutation of the link-graph iteration order (hence deterministic
and order-insensitive). -/
theorem backlink_sum_invariant (idx : Index) (h : (noteKeys idx).Nodup) :
    ((noteKeys idx).map (backlink_count idx)).sum =
      (idx.link_graph.map (fun sl =>
        sl.2.countP (fun l => (normalize_link (noteKeys idx) l).isSome))).sum ∧
    ∀ g' : List (String × List String), idx.link_graph.Perm g' →
      backlink_count idx = calc_backlinks (noteKeys idx) g' := by
  constructor
  · have h1 : ((noteKeys idx).map (backlink_count idx)).sum =
        ((noteKeys idx).map (fun p => (idx.link_graph.map
          (fun sl => sl.2.countP (fun l => normalize_link (noteKeys idx) l == some p))).sum)).sum := by
      exact congrArg List.sum (List.map_congr_left
        (fun p _ => calc_backlinks_eq_sum (noteKeys idx) idx.link_graph p))
    rw [h1]
    clear h1
    induction idx.link_graph with
    | nil => simp
    | cons sl g' ih =>
      have hstep : ∀ p : String,
          ((sl :: g').map (fun sl' =>
            sl'.2.countP (fun l => normalize_link (noteKeys idx) l == some p))).sum =
            sl.2.countP (fun l => normalize_link (noteKeys idx) l == some p) +
              (g'.map (fun sl' =>
                sl'.2.countP (fun l => normalize_link (noteKeys idx) l == some p))).sum := by
        intro p; rw [List.map_cons, List.sum_cons]
      calc ((noteKeys idx).map (fun p => ((sl :: g').map (fun sl' =>
              sl'.2.countP (fun l => normalize_link (noteKeys idx) l == some p))).sum)).sum
          = ((noteKeys idx).map (fun p =>
              sl.2.countP (fun l => normalize_link (noteKeys idx) l == some p) +
                (g'.map (fun sl' =>
                  sl'.2.countP (fun l => normalize_link (noteKeys idx) l == some p))).sum)).sum := by
            exact congrArg List.sum (List.map_congr_left (fun p _ => hstep p))
        _ = ((noteKeys idx).map (fun p =>
              sl.2.countP (fun l => normalize_link (noteKeys idx) l == some p))).sum +
              ((noteKeys idx).map (fun p => (g'.map (fun sl' =>
                sl'.2.countP (fun l => normalize_link (noteKeys idx) l == some p))).sum)).sum :=
            sum_map_add_nat _ _ _
        _ = ((sl :: g').map (fun sl' =>
              sl'.2.countP (fun l => (normalize_link (noteKeys idx) l).isSome))).sum := by
            rw [countP_resolved (noteKeys idx) h sl.2, ih, List.map_cons, List.sum_cons]
  · intro g' hperm
    exact calc_backlinks_perm (noteKeys idx) hperm

theorem backlink_sum_invariant_witness :
    ((noteKeys idxEx2).map (backlink_count idxEx2)).sum =
      (idxEx2.link_graph.map (fun sl =>
        sl.2.countP (fun l => (normalize_link (noteKeys idxEx2) l).isSome))).sum ∧
    ∀ g' : List (String × List String), idxEx2.link_graph.Perm g' →
      backlink_count idxEx2 = calc_backlinks (noteKeys idxEx2) g' :=
  backlink_sum_invariant idxEx2 (by decide)

/-! ## C9: orphan detection -/

instance : IsTotal OrphanEntry (fun a b => b.word_count ≤ a.word_count) :=
  ⟨fun a b => le_total b.word_count a.word_count⟩

instance : IsTrans OrphanEntry (fun a b => b.word_count ≤ a.word_count) :=
  ⟨fun _ _ _ h1 h2 => le_trans h2 h1⟩

/-- C9: every indexed note with zero backlinks and zero outgoing links appears
in the orphan list; a note with two or more outgoing links never appears in it
regardless of its backlink count; and the orphan list is sorted by word count
descending. -/
theorem orphaned_notes_spec (idx : Index) :
    (∀ pe ∈ idx.content_index,
      backlink_count idx pe.1 = 0 → outgoingCount idx pe.1 = 0 →
        ∃ o ∈ identify_orphaned_notes idx, o.path = pe.1) ∧
    (∀ p : String, 2 ≤ outgoingCount idx p →
      ∀ o ∈ identify_orphaned_notes idx, o.path ≠ p) ∧
    List.Sorted (fun a b => b.word_count ≤ a.word_count) (identify_orphaned_notes idx) := by
  have hperm : (identify_orphaned_notes idx).Perm
      (idx.content_index.filterMap (fun pe =>
        if backlink_count idx pe.1 = 0 ∧ outgoingCount idx pe.1 ≤ 1 then
          some { path := pe.1, title := pe.2.title, word_count := pe.2.word_count,
                 outgoing_links := outgoingCount idx pe.1, tags := pe.2.tags }
        else none)) := by
    unfold identify_orphaned_notes
    exact List.perm_insertionSort _ _
  refine ⟨?_, ?_, ?_⟩
  · intro pe hpe h0 hout
    refine ⟨{ path := pe.1, title := pe.2.title, word_count := pe.2.word_count,
              outgoing_links := outgoingCount idx pe.1, tags := pe.2.tags }, ?_, rfl⟩
    rw [hperm.mem_iff]
    exact List.mem_filterMap.mpr ⟨pe, hpe, by rw [if_pos ⟨h0, by omega⟩]⟩
  · intro p hp o ho hop
    rcases List.mem_filterMap.mp (hperm.mem_iff.mp ho) with ⟨pe, _, hfe⟩
    by_cases hc : backlink_count idx pe.1 = 0 ∧ outgoingCount idx pe.1 ≤ 1
    · rw [if_pos hc] at hfe
      have hpath : o.path = pe.1 := by
        cases hfe
        rfl
      rw [hop] at hpath
      rw [← hpath] at hc
      omega
    · rw [if_neg hc] at hfe
      exact Option.noConfusion hfe
  · unfold identify_orphaned_notes
    exact List.sorted_insertionSort _ _

/-- Example vault for C9: one fully isolated note and one note with two
outgoing links. -/
def idxEx9 : Index :=
  build_index_pass
    [⟨"solo.md", some ⟨none, "just some words", []⟩⟩,
     ⟨"hub.md", some ⟨none, "[[x]] [[y]]", []⟩⟩]

/-! ## C3: link extraction -/

theorem takeWhile_split (p : Char → Bool) (l : List Char) (x : Char) (r : List Char)
    (hl : ∀ c ∈ l, p c = true) (hx : p x = false) :
    (l ++ x :: r).takeWhile p = [] ++ l ∧ (l ++ x :: r).dropWhile p = x :: r := by
  induction l with
  | nil =>
    constructor
    · rw [List.nil_append, List.takeWhile_cons, hx]
      rfl
    · rw [List.nil_append, List.dropWhile_cons, hx]
      rfl
  | cons c cs ih =>
    have hc : p c = true := hl c (List.mem_cons_self c cs)
    have ihr := ih (fun c' hc' => hl c' (List.mem_cons_of_mem c hc'))
    constructor
    · rw [List.cons_append, List.takeWhile_cons, hc]
      simp only [if_true, List.nil_append]
      rw [List.nil_append] at ihr
      rw [ihr.1]
    · rw [List.cons_append, List.dropWhile_cons, hc]
      simp only [if_true]
      exact ihr.2

theorem wikiLinksF_nil (fuel : ℕ) : wikiLinksF fuel [] = [] := by
  cases fuel <;> rfl

theorem mdLinksF_nil (fuel : ℕ) : mdLinksF fuel [] = [] := by
  cases fuel <;> rfl

theorem wikiLinksF_step (fuel : ℕ) (c c2 : Char) (rest2 : List Char) :
    wikiLinksF (fuel + 1) (c :: c2 :: rest2) =
      if c = '[' ∧ c2 = '[' ∧
          (rest2.dropWhile (fun x => x ≠ ']')).take 2 = [']', ']'] ∧
          rest2.takeWhile (fun x => x ≠ ']') ≠ [] then
        String.mk (rest2.takeWhile (fun x => x ≠ ']')) ::
          wikiLinksF fuel ((rest2.dropWhile (fun x => x ≠ ']')).drop 2)
      else wikiLinksF fuel (c2 :: rest2) := rfl

theorem mdLinksF_step (fuel : ℕ) (c : Char) (rest : List Char) :
    mdLinksF (fuel + 1) (c :: rest) =
      if c = '[' ∧ (rest.dropWhile (fun x => x ≠ ']')).take 2 = [']', '('] ∧
          rest.takeWhile (fun x => x ≠ ']') ≠ [] ∧
          4 ≤ (mdCapture rest).length ∧
          (mdCapture rest).drop ((mdCapture rest).length - 3) = ['.', 'm', 'd'] ∧
          mdRemainder rest ≠ [] then
        String.mk (mdCapture rest) :: mdLinksF fuel ((mdRemainder rest).drop 1)
      else mdLinksF fuel rest := rfl

theorem wikiLinksF_no_bracket :
    ∀ (fuel : ℕ) (l : List Char), '[' ∉ l → wikiLinksF fuel l = [] := by
  intro fuel
  induction fuel with
  | zero => intro l _; rfl
  | succ n ih =>
    intro l h
    match l with
    | [] => rfl
    | [_] => rfl
    | c :: c2 :: rest2 =>
      rw [wikiLinksF_step]
      have hc : c ≠ '[' := fun hh => h (hh ▸ List.mem_cons_self c (c2 :: rest2))
      rw [if_neg (fun hand => hc hand.1)]
      exact ih (c2 :: rest2) (fun hm => h (List.mem_cons_of_mem c hm))

theorem mdLinksF_no_paren :
    ∀ (fuel : ℕ) (l : List Char), '(' ∉ l → mdLinksF fuel l = [] := by
  intro fuel
  induction fuel with
  | zero => intro l _; rfl
  | succ n ih =>
    intro l h
    match l with
    | [] => rfl
    | c :: rest =>
      rw [mdLinksF_step]
      have hrest : '(' ∉ rest := fun hm => h (List.mem_cons_of_mem c hm)
      have hcond : ¬(c = '[' ∧ (rest.dropWhile (fun x => x ≠ ']')).take 2 = [']', '('] ∧
          rest.takeWhile (fun x => x ≠ ']') ≠ [] ∧
          4 ≤ (mdCapture rest).length ∧
          (mdCapture rest).drop ((mdCapture rest).length - 3) = ['.', 'm', 'd'] ∧
          mdRemainder rest ≠ []) := by
        rintro ⟨_, htake, _⟩
        have hp : '(' ∈ (rest.dropWhile (fun x => x ≠ ']')).take 2 := by
          rw [htake]
          simp
        have hdw : '(' ∈ rest.dropWhile (fun x => x ≠ ']') :=
          List.take_subset 2 _ hp
        exact hrest ((List.dropWhile_sublist _).subset hdw)
      rw [if_neg hcond]
      exact ih rest hrest

theorem isAlpha_ne (c : Char) (h : c.isAlpha = true) (d : Char)
    (hd : d.isAlpha = false) : c ≠ d := by
  intro hc
  subst hc
  rw [h] at hd
  exact Bool.noConfusion hd

theorem extract_links_wiki_verbatim (name : String) (hne : name.data ≠ [])
    (halpha : ∀ c ∈ name.data, c.isAlpha = true ∨ c = '|') :
    extract_links ("[[" ++ name ++ "]]") = [name] := by
  have hchars : ∀ c ∈ name.data, (fun x => decide (x ≠ ']')) c = true := by
    intro c hc
    apply decide_eq_true
    rcases halpha c hc with h | h
    · exact isAlpha_ne c h ']' (by decide)
    · rw [h]; decide
  have hnoparen : '(' ∉ ('[' :: '[' :: (name.data ++ ']' :: [']'])) := by
    intro hmem
    rcases List.mem_cons.mp hmem with h | hmem
    · exact absurd h (by decide)
    rcases List.mem_cons.mp hmem with h | hmem
    · exact absurd h (by decide)
    rcases List.mem_append.mp hmem with h | h
    · rcases halpha '(' h with ha | ha
      · exact absurd ha (by decide)
      · exact absurd ha (by decide)
    · exact absurd h (by decide)
  have hdata : ("[[" ++ name ++ "]]").data = '[' :: '[' :: (name.data ++ ']' :: [']']) := by
    rw [String.data_append, String.data_append]
    rfl
  have hsplit := takeWhile_split (fun x => decide (x ≠ ']')) name.data ']' [']']
    hchars (by decide)
  rw [List.nil_append] at hsplit
  unfold extract_links wikiLinks mdLinks
  rw [hdata]
  rw [show ('[' :: '[' :: (name.data ++ ']' :: [']'])).length = (name.data.length + 3) + 1 by
    simp only [List.length_cons, List.length_append, List.length_nil]]
  rw [wikiLinksF_step]
  rw [if_pos ⟨rfl, rfl, by rw [hsplit.2]; rfl, by rw [hsplit.1]; exact hne⟩]
  rw [hsplit.1, hsplit.2]
  rw [show ((']' :: [']']).drop 2) = ([] : List Char) from rfl]
  rw [wikiLinksF_nil]
  rw [mdLinksF_no_paren _ _ hnoparen]
  rw [show String.mk name.data = name from rfl]
  simp

theorem extract_links_md_verbatim (text target : String) (htne : text.data ≠ [])
    (hgne : target.data ≠ []) (htext : ∀ c ∈ text.data, c.isAlpha = true)
    (htarget : ∀ c ∈ target.data, c.isAlpha = true) :
    extract_links ("[" ++ text ++ "](" ++ target ++ ".md)") = [target ++ ".md"] := by
  have htchars : ∀ c ∈ text.data, (fun x => decide (x ≠ ']')) c = true := fun c hc =>
    decide_eq_true (isAlpha_ne c (htext c hc) ']' (by decide))
  have hgchars : ∀ c ∈ target.data ++ ['.', 'm', 'd'],
      (fun x => decide (x ≠ ')')) c = true := by
    intro c hc
    apply decide_eq_true
    rcases List.mem_append.mp hc with h | h
    · exact isAlpha_ne c (htarget c h) ')' (by decide)
    · intro hc'
      rw [hc'] at h
      exact absurd h (by decide)
  have hdata : ("[" ++ text ++ "](" ++ target ++ ".md)").data =
      '[' :: (text.data ++ ']' :: '(' :: (target.data ++ ['.', 'm', 'd'] ++ [')'])) := by
    rw [String.data_append, String.data_append, String.data_append, String.data_append]
    show (((['['] ++ text.data) ++ [']', '(']) ++ target.data) ++ ['.', 'm', 'd', ')'] = _
    simp [List.append_assoc]
  have hsplit1 := takeWhile_split (fun x => decide (x ≠ ']')) text.data ']'
    ('(' :: (target.data ++ ['.', 'm', 'd'] ++ [')'])) htchars (by decide)
  rw [List.nil_append] at hsplit1
  have hsplit2 := takeWhile_split (fun x => decide (x ≠ ')'))
    (target.data ++ ['.', 'm', 'd']) ')' [] hgchars (by decide)
  rw [List.nil_append] at hsplit2
  have hdw : (text.data ++ ']' :: '(' :: (target.data ++ ['.', 'm', 'd'] ++ [')'])).dropWhile
      (fun x => decide (x ≠ ']')) = ']' :: '(' :: (target.data ++ ['.', 'm', 'd'] ++ [')']) :=
    hsplit1.2
  have htw : (text.data ++ ']' :: '(' :: (target.data ++ ['.', 'm', 'd'] ++ [')'])).takeWhile
      (fun x => decide (x ≠ ']')) = text.data := hsplit1.1
  have htail : mdTail (text.data ++ ']' :: '(' :: (target.data ++ ['.', 'm', 'd'] ++ [')'])) =
      target.data ++ ['.', 'm', 'd'] ++ [')'] := by
    unfold mdTail
    rw [hdw]
    rfl
  have happ : target.data ++ ['.', 'm', 'd'] ++ [')'] =
      (target.data ++ ['.', 'm', 'd']) ++ ')' :: [] := rfl
  have hcap : mdCapture (text.data ++ ']' :: '(' :: (target.data ++ ['.', 'm', 'd'] ++ [')'])) =
      target.data ++ ['.', 'm', 'd'] := by
    unfold mdCapture
    rw [htail, happ, hsplit2.1]
  have hrem : mdRemainder (text.data ++ ']' :: '(' :: (target.data ++ ['.', 'm', 'd'] ++ [')'])) =
      [')'] := by
    unfold mdRemainder
    rw [htail, happ, hsplit2.2]
  have hcaplen : (target.data ++ ['.', 'm', 'd']).length = target.data.length + 3 := by
    simp only [List.length_append, List.length_cons, List.length_nil]
  have hnob : '[' ∉ (text.data ++ ']' :: '(' :: (target.data ++ ['.', 'm', 'd'] ++ [')'])) := by
    intro hmem
    rcases List.mem_append.mp hmem with h | hmem
    · exact absurd (htext '[' h) (by decide)
    rcases List.mem_cons.mp hmem with h | hmem
    · exact absurd h (by decide)
    rcases List.mem_cons.mp hmem with h | hmem
    · exact absurd h (by decide)
    rcases List.mem_append.mp hmem with h | h
    · rcases List.mem_append.mp h with h | h
      · exact absurd (htarget '[' h) (by decide)
      · exact absurd h (by decide)
    · exact absurd h (by decide)
  have hc4 : 4 ≤ (mdCapture (text.data ++ ']' :: '(' ::
      (target.data ++ ['.', 'm', 'd'] ++ [')']))).length := by
    rw [hcap, hcaplen]
    have : 1 ≤ target.data.length := List.length_pos.mpr hgne
    omega
  have hc5 : (mdCapture (text.data ++ ']' :: '(' ::
        (target.data ++ ['.', 'm', 'd'] ++ [')']))).drop
      ((mdCapture (text.data ++ ']' :: '(' ::
        (target.data ++ ['.', 'm', 'd'] ++ [')']))).length - 3) = ['.', 'm', 'd'] := by
    rw [hcap, hcaplen]
    rw [show target.data.length + 3 - 3 = target.data.length from by omega]
    exact List.drop_left target.data ['.', 'm', 'd']
  unfold extract_links wikiLinks mdLinks
  rw [hdata]
  rw [show ('[' :: (text.data ++ ']' :: '(' ::
      (target.data ++ ['.', 'm', 'd'] ++ [')']))).length =
      (text.data.length + target.data.length + 6) + 1 by
    simp only [List.length_cons, List.length_append, List.length_nil]
    omega]
  have hwiki : wikiLinksF ((text.data.length + target.data.length + 6) + 1)
      ('[' :: (text.data ++ ']' :: '(' :: (target.data ++ ['.', 'm', 'd'] ++ [')']))) = [] := by
    rcases hd : text.data with _ | ⟨tc, ttail⟩
    · exact absurd hd htne
    · rw [hd] at hnob
      rw [List.cons_append] at hnob ⊢
      rw [wikiLinksF_step]
      have htc : tc ≠ '[' := by
        have hmem : tc ∈ text.data := by rw [hd]; exact List.mem_cons_self tc ttail
        exact isAlpha_ne tc (htext tc hmem) '[' (by decide)
      rw [if_neg (fun hand => htc hand.2.1)]
      exact wikiLinksF_no_bracket _ _ hnob
  rw [hwiki]
  rw [mdLinksF_step]
  rw [if_pos ⟨rfl, by rw [hdw]; rfl, by rw [htw]; exact htne, hc4, hc5,
    by rw [hrem]; decide⟩]
  rw [hcap, hrem]
  rw [show (([')'] : List Char).drop 1) = ([] : List Char) from rfl]
  rw [mdLinksF_nil]
  have hmkstr : String.mk (target.data ++ ['.', 'm', 'd']) = target ++ ".md" := by
    have hd2 : (target ++ ".md").data = target.data ++ ['.', 'm', 'd'] := by
      rw [String.data_append]
    rw [← hd2]
  rw [hmkstr]
  simp

/-- C3 counterexample: on the body consisting of the single aliased wiki link,
the extracted outgoing-link list contains the full bracketed text and not the
bare name; likewise a markdown link contributes its raw .md target, extension
included. -/
theorem extract_links_alias_counterexample :
    "Name" ∉ extract_links "[[Name|alias]]" ∧
    "Name|alias" ∈ extract_links "[[Name|alias]]" ∧
    "Note" ∉ extract_links "[text](Note.md)" ∧
    "Note.md" ∈ extract_links "[text](Note.md)" := by decide

/-- C3 (amended): link extraction returns, for each wiki link, the full text
between the double brackets verbatim — an embedded |displayAlias is kept as
part of the target, not stripped — and, for each markdown link with a .md
target, the raw target including its .md extension; duplicate targets within
one note are removed. -/
theorem extract_links_amended :
    (∀ name : String, name.data ≠ [] → (∀ c ∈ name.data, c.isAlpha = true ∨ c = '|') →
      extract_links ("[[" ++ name ++ "]]") = [name]) ∧
    (∀ text target : String, text.data ≠ [] → target.data ≠ [] →
      (∀ c ∈ text.data, c.isAlpha = true) → (∀ c ∈ target.data, c.isAlpha = true) →
      extract_links ("[" ++ text ++ "](" ++ target ++ ".md)") = [target ++ ".md"]) ∧
    (∀ content : String, (extract_links content).Nodup) :=
  ⟨extract_links_wiki_verbatim, extract_links_md_verbatim,
   fun _ => List.nodup_dedup _⟩

theorem extract_links_amended_witness :
    extract_links ("[[" ++ "Name|alias" ++ "]]") = ["Name|alias"] ∧
    extract_links ("[" ++ "text" ++ "](" ++ "Note" ++ ".md)") = ["Note" ++ ".md"] :=
  ⟨extract_links_amended.1 "Name|alias" (by decide) (by decide),
   extract_links_amended.2.1 "text" "Note" (by decide) (by decide) (by decide) (by decide)⟩

/-! ## C5, C6, C7: cosine similarity properties -/

theorem allTerms_comm (t1 t2 : List String) : allTerms t1 t2 = allTerms t2 t1 := by
  unfold allTerms
  rw [List.toFinset_append, List.toFinset_append, Finset.union_comm]

theorem dotOver_comm (s : Finset String) (t1 t2 : List String) :
    dotOver s t1 t2 = dotOver s t2 t1 := by
  unfold dotOver
  exact Finset.sum_congr rfl (fun t _ => Nat.mul_comm _ _)

theorem normSqOver_pos (s : Finset String) (tk : List String)
    (h : tk ≠ []) (hsub : ∀ x ∈ tk, x ∈ s) : 1 ≤ normSqOver s tk := by
  rcases List.exists_mem_of_ne_nil tk h with ⟨x, hx⟩
  have hc : 0 < tk.count x := List.count_pos_iff.mpr hx
  calc (1 : ℕ) = 1 ^ 2 := rfl
    _ ≤ tk.count x ^ 2 := Nat.pow_le_pow_left hc 2
    _ ≤ ∑ t ∈ s, tk.count t ^ 2 :=
        @Finset.single_le_sum String ℕ _ (fun t => tk.count t ^ 2) s
          (fun i _ => Nat.zero_le _) x (hsub x hx)

theorem dot_le_norms (s : Finset String) (t1 t2 : List String) :
    (dotOver s t1 t2 : ℝ) ≤
      Real.sqrt (normSqOver s t1) * Real.sqrt (normSqOver s t2) := by
  have hcs := Finset.sum_mul_sq_le_sq_mul_sq s
    (fun t => (t1.count t : ℝ)) (fun t => (t2.count t : ℝ))
  have hdot : (dotOver s t1 t2 : ℝ) = ∑ t ∈ s, (t1.count t : ℝ) * (t2.count t : ℝ) := by
    unfold dotOver; push_cast; rfl
  have hn1 : ((normSqOver s t1 : ℕ) : ℝ) = ∑ t ∈ s, (t1.count t : ℝ) ^ 2 := by
    unfold normSqOver; push_cast; rfl
  have hn2 : ((normSqOver s t2 : ℕ) : ℝ) = ∑ t ∈ s, (t2.count t : ℝ) ^ 2 := by
    unfold normSqOver; push_cast; rfl
  have hmul : Real.sqrt (normSqOver s t1) * Real.sqrt (normSqOver s t2) =
      Real.sqrt ((normSqOver s t1 : ℝ) * (normSqOver s t2 : ℝ)) :=
    (Real.sqrt_mul (by positivity) _).symm
  rw [hmul]
  rw [Real.le_sqrt (by positivity) (by positivity)]
  rw [hdot, hn1, hn2]
  exact hcs

/-- C5: cosine similarity is symmetric: sim(A, B) = sim(B, A) for all pairs of
note bodies. -/
theorem similarity_symmetric (c1 c2 : String) :
    calculate_similarity c1 c2 = calculate_similarity c2 c1 := by
  unfold calculate_similarity
  have hAT : allTerms (tokenize c2) (tokenize c1) = allTerms (tokenize c1) (tokenize c2) :=
    allTerms_comm _ _
  have hDOT : dotOver (allTerms (tokenize c1) (tokenize c2)) (tokenize c2) (tokenize c1) =
      dotOver (allTerms (tokenize c1) (tokenize c2)) (tokenize c1) (tokenize c2) :=
    dotOver_comm _ _ _
  simp only [hAT, hDOT]
  by_cases h1 : tokenize c1 = []
  · simp [h1]
  by_cases h2 : tokenize c2 = []
  · simp [h1, h2]
  simp only [h1, h2, false_or, or_false, if_false, eq_self_iff_true]
  by_cases hA : allTerms (tokenize c1) (tokenize c2) = ∅
  · simp [h1, h2, hA]
  by_cases hB : Real.sqrt (normSqOver (allTerms (tokenize c1) (tokenize c2)) (tokenize c1)) = 0
  · simp [h1, h2, hA, hB]
  by_cases hC : Real.sqrt (normSqOver (allTerms (tokenize c1) (tokenize c2)) (tokenize c2)) = 0
  · simp [h1, h2, hA, hB, hC]
  simp [h1, h2, hA, hB, hC, mul_comm]

/-- C6: the claimed bounds hold of the exact-arithmetic similarity — 0 when
either body has no extractable token, within [0, 1] when both have one.  The
floating-point program violates the upper bound by one ulp (two copies of
"alpha beta gamma" give 3 / (math.sqrt(3) * math.sqrt(3)) =
3 / 2.9999999999999996 = 1.0000000000000002 > 1), so the claim is recorded as
a bug of the float code against the spec's intended bound, which this theorem
verifies for the idealized semantics. -/
theorem similarity_bounds (c1 c2 : String) :
    ((tokenize c1 = [] ∨ tokenize c2 = []) → calculate_similarity c1 c2 = 0) ∧
    (tokenize c1 ≠ [] → tokenize c2 ≠ [] →
      0 ≤ calculate_similarity c1 c2 ∧ calculate_similarity c1 c2 ≤ 1) := by
  constructor
  · intro h
    unfold calculate_similarity
    rw [if_pos h]
  · intro h1 h2
    unfold calculate_similarity
    have hno : ¬(tokenize c1 = [] ∨ tokenize c2 = []) := by
      rintro (h | h)
      · exact h1 h
      · exact h2 h
    rw [if_neg hno]
    have hsub1 : ∀ x ∈ tokenize c1, x ∈ allTerms (tokenize c1) (tokenize c2) :=
      fun x hx => List.mem_toFinset.mpr (List.mem_append_left _ hx)
    have hsub2 : ∀ x ∈ tokenize c2, x ∈ allTerms (tokenize c1) (tokenize c2) :=
      fun x hx => List.mem_toFinset.mpr (List.mem_append_right _ hx)
    have hn1 : 1 ≤ normSqOver (allTerms (tokenize c1) (tokenize c2)) (tokenize c1) :=
      normSqOver_pos _ _ h1 hsub1
    have hn2 : 1 ≤ normSqOver (allTerms (tokenize c1) (tokenize c2)) (tokenize c2) :=
      normSqOver_pos _ _ h2 hsub2
    have hs1 : (0 : ℝ) <
        Real.sqrt (normSqOver (allTerms (tokenize c1) (tokenize c2)) (tokenize c1)) :=
      Real.sqrt_pos.mpr (by exact_mod_cast hn1)
    have hs2 : (0 : ℝ) <
        Real.sqrt (normSqOver (allTerms (tokenize c1) (tokenize c2)) (tokenize c2)) :=
      Real.sqrt_pos.mpr (by exact_mod_cast hn2)
    have hse : allTerms (tokenize c1) (tokenize c2) ≠ ∅ := by
      rcases List.exists_mem_of_ne_nil _ h1 with ⟨x, hx⟩
      exact Finset.ne_empty_of_mem (hsub1 x hx)
    rw [if_neg hse]
    have hguard :
        ¬(Real.sqrt (normSqOver (allTerms (tokenize c1) (tokenize c2)) (tokenize c1)) = 0 ∨
          Real.sqrt (normSqOver (allTerms (tokenize c1) (tokenize c2)) (tokenize c2)) = 0) := by
      rintro (h | h)
      · exact absurd h (ne_of_gt hs1)
      · exact absurd h (ne_of_gt hs2)
    rw [if_neg hguard]
    constructor
    · positivity
    · rw [div_le_one (mul_pos hs1 hs2)]
      exact dot_le_norms _ _ _

theorem similarity_bounds_witness :
    calculate_similarity "ab" "hello" = 0 ∧
    (0 ≤ calculate_similarity "alpha beta" "alpha gamma" ∧
      calculate_similarity "alpha beta" "alpha gamma" ≤ 1) :=
  ⟨(similarity_bounds "ab" "hello").1 (Or.inl (by decide)),
   (similarity_bounds "alpha beta" "alpha gamma").2 (by decide) (by decide)⟩

/-- C7: two notes with identical file content and at least one extractable
token have similarity exactly 1 in exact arithmetic.  The floating-point
program misses exactness by one ulp for most contents (two copies of
"alpha beta" give 2 / (math.sqrt(2) * math.sqrt(2)) = 2 / 2.0000000000000004 =
0.9999999999999998, not 1.0), so the claim is recorded as a bug of the float
code against the spec's "exactly 1.0", which this theorem verifies for the
idealized semantics. -/
theorem similarity_identical (c1 c2 : String) (heq : c1 = c2)
    (h : tokenize c1 ≠ []) : calculate_similarity c1 c2 = 1 := by
  subst heq
  unfold calculate_similarity
  have hno : ¬(tokenize c1 = [] ∨ tokenize c1 = []) := fun hh => h (hh.elim id id)
  rw [if_neg hno]
  have hsub1 : ∀ x ∈ tokenize c1, x ∈ allTerms (tokenize c1) (tokenize c1) :=
    fun x hx => List.mem_toFinset.mpr (List.mem_append_left _ hx)
  have hn1 : 1 ≤ normSqOver (allTerms (tokenize c1) (tokenize c1)) (tokenize c1) :=
    normSqOver_pos _ _ h hsub1
  have hpos : (0 : ℝ) <
      ((normSqOver (allTerms (tokenize c1) (tokenize c1)) (tokenize c1) : ℕ) : ℝ) := by
    exact_mod_cast hn1
  have hs1 : (0 : ℝ) <
      Real.sqrt (normSqOver (allTerms (tokenize c1) (tokenize c1)) (tokenize c1)) :=
    Real.sqrt_pos.mpr hpos
  have hse : allTerms (tokenize c1) (tokenize c1) ≠ ∅ := by
    rcases List.exists_mem_of_ne_nil _ h with ⟨x, hx⟩
    exact Finset.ne_empty_of_mem (hsub1 x hx)
  rw [if_neg hse]
  have hguard :
      ¬(Real.sqrt (normSqOver (allTerms (tokenize c1) (tokenize c1)) (tokenize c1)) = 0 ∨
        Real.sqrt (normSqOver (allTerms (tokenize c1) (tokenize c1)) (tokenize c1)) = 0) :=
    fun hh => absurd (hh.elim id id) (ne_of_gt hs1)
  rw [if_neg hguard]
  have hdot : dotOver (allTerms (tokenize c1) (tokenize c1)) (tokenize c1) (tokenize c1) =
      normSqOver (allTerms (tokenize c1) (tokenize c1)) (tokenize c1) := by
    unfold dotOver normSqOver
    exact Finset.sum_congr rfl (fun t _ => (pow_two _).symm)
  rw [hdot, Real.mul_self_sqrt (le_of_lt hpos)]
  exact div_self (ne_of_gt hpos)

theorem similarity_identical_witness :
    calculate_similarity "machine learning rocks" "machine learning rocks" = 1 :=
  similarity_identical "machine learning rocks" "machine learning rocks" rfl (by decide)

theorem orphaned_notes_spec_witness :
    (∃ o ∈ identify_orphaned_notes idxEx9, o.path = "solo.md") ∧
    (∀ o ∈ identify_orphaned_notes idxEx9, o.path ≠ "hub.md") ∧
    List.Sorted (fun a b => b.word_count ≤ a.word_count) (identify_orphaned_notes idxEx9) :=
  ⟨(orphaned_notes_spec idxEx9).1
      ("solo.md", { title := "solo", content := "just some words",
                    word_count := 3, tags := [] })
      (by decide) (by decide) (by decide),
   (orphaned_notes_spec idxEx9).2.1 "hub.md" (by decide),
   (orphaned_notes_spec idxEx9).2.2⟩

end VaultIntelligence
